import Mathlib

/-!
Verification of the electron-configuration parser and the effective-charge /
reactivity calculator of `mendeleev/tables.py`.

The Python code is shallowly embedded: Python strings are `List Char`,
Python `OrderedDict`s are association lists with Python's insertion semantics
(updating an existing key keeps its position, a new key is appended), real
numbers are `ℚ` (the decimal constants 0.3, 0.35, 0.85, 0.5 become exact
rationals), and code that can raise returns `Except Err _` where each `Err`
constructor corresponds to one raise site of the source.
-/

/-- Canonical subshell labels in order (source: module-level `subshells` list). -/
def subshells : List Char := ['s', 'p', 'd', 'f', 'g', 'h', 'i', 'j', 'k']

/-- A shell entry: key `(n, subshell letter)` together with its occupancy,
one item of the Python ordered dictionaries. -/
abbrev Entry : Type := (Nat × Char) × Nat

/-- Errors raised by the Python code; each constructor corresponds to one
raise site (`ValueError`, `KeyError`, `IndexError` or `ZeroDivisionError`). -/
inductive Err where
  /-- `citems[0]` on an empty token list in `parse` (IndexError). -/
  | indexError
  /-- `self.noble[symbol]` with an unrecognized bracketed symbol (KeyError). -/
  | unknownAbbreviation
  /-- `max` of an empty sequence in `maxn` (ValueError). -/
  | emptyConfMax
  /-- the `raise` in `zeff` for an `n` argument that is not an `int`
  (the source even has a `typ(n)` typo there, so Python raises NameError
  while evaluating the ValueError message; either way the call fails here). -/
  | invalidQuantumNumber
  /-- `max` of an empty sequence when defaulting `s` in `zeff` (ValueError). -/
  | emptySubshellMax
  /-- `subshells[i]` out of range when defaulting `s` in `zeff` (IndexError). -/
  | subshellIndexError
  /-- the `raise` in `zeff` for an `s` argument not in `subshells`. -/
  | invalidSubshell
  /-- the `raise` in `zeff` for a method other than slater/clementi. -/
  | unsupportedMethod
  /-- `self.sconst[n,s]` with no tabulated value (KeyError). -/
  | missingScreening
  /-- the `raise` in `slater_screening` for a subshell other than s/p/d/f. -/
  | wrongValenceSubshell
  /-- the `raise` in `abselen`/`hardness` for a negative charge. -/
  | invalidCharge
  /-- `1.0/(2.0*eta)` with `eta == 0` in `softness` (ZeroDivisionError). -/
  | zeroDivision
  deriving DecidableEq

/-- The whitespace characters of Python `str.split()`. -/
def pyIsSpace (c : Char) : Bool :=
  c = ' ' || c = '\t' || c = '\n' || c = '\r' || c = '\x0b' || c = '\x0c'

/-- Worker for `pysplit`; `acc` holds the current token reversed. -/
def pysplitAux : List Char → List Char → List (List Char)
  | [], acc => if acc = [] then [] else [acc.reverse]
  | c :: cs, acc =>
      if pyIsSpace c then
        if acc = [] then pysplitAux cs [] else acc.reverse :: pysplitAux cs []
      else pysplitAux cs (c :: acc)

/-- Python `str.split()` with no argument: split on whitespace runs,
dropping empty pieces (source line 600: `self.confstr.split()`). -/
def pysplit (s : List Char) : List (List Char) := pysplitAux s []

/-- One Python dict insertion on an association list: an existing key is
updated in place, a new key is appended at the end. -/
def odictInsert : List Entry → Entry → List Entry
  | [], x => [x]
  | y :: t, x => if y.1 = x.1 then (y.1, x.2) :: t else y :: odictInsert t x

/-- Insert each pair of `l` in order into the ordered dictionary `d`. -/
def insertAll (d : List Entry) (l : List Entry) : List Entry :=
  l.foldl odictInsert d

/-- Python `OrderedDict(pairs)` built from a list of key/value pairs. -/
def odictOfList (l : List Entry) : List Entry := insertAll [] l

/-- The key sequence of an ordered dictionary. -/
def keysOf (d : List Entry) : List (Nat × Char) := d.map Prod.fst

/-- Update the value stored at key `k` (position preserved); identity if absent. -/
def setVal : List Entry → (Nat × Char) → Nat → List Entry
  | [], _, _ => []
  | y :: t, k, v => if y.1 = k then (y.1, v) :: t else y :: setVal t k v

/-- The ASCII character of a decimal digit. -/
def digChar (d : Nat) : Char := Char.ofNat (d + 48)

/-- Worker for `natToChars`, structural in a fuel argument. -/
def natToCharsAux : Nat → Nat → List Char → List Char
  | 0, _, acc => acc
  | fuel + 1, n, acc =>
      if n < 10 then digChar n :: acc
      else natToCharsAux fuel (n / 10) (digChar (n % 10) :: acc)

/-- Decimal rendering of a natural number, most significant digit first
(Python `"{:d}".format`). -/
def natToChars (n : Nat) : List Char := natToCharsAux (n + 1) n []

/-- Numeric value of a decimal digit character. -/
def digitVal (c : Char) : Nat := c.toNat - 48

/-- Python `int(...)` on a string of decimal digits. -/
def charsToNat (cs : List Char) : Nat :=
  cs.foldl (fun a c => a * 10 + digitVal c) 0

/-- ASCII test for the regex class `[A-Z]`. -/
def isUpperAZ (c : Char) : Bool := 'A' ≤ c && c ≤ 'Z'

/-- ASCII test for the regex class `[a-z]`. -/
def isLowerAZ (c : Char) : Bool := 'a' ≤ c && c ≤ 'z'

/-- Model of `re.match` with the anchored prefix pattern
`\[([A-Z][a-z]*)\]` (source `atomre`): returns group 1 on success.
The greedy `[a-z]*` run never needs backtracking because `]` is not in
`[a-z]`, so `takeWhile`/`dropWhile` reproduce the regex semantics. -/
def atomreMatch (t : List Char) : Option (List Char) :=
  match t with
  | c0 :: c1 :: rest =>
      if c0 = '[' ∧ isUpperAZ c1 = true ∧ (rest.dropWhile isLowerAZ).head? = some ']' then
        some (c1 :: rest.takeWhile isLowerAZ)
      else none
  | _ => none

/-- Model of `re.match` with the anchored prefix pattern
`(?P<n>\d)(?P<s>[spdfghijk])(?P<e>\d+)?` (source `shellre`): returns the
groups `n`, `s`, `e` (the last one absent when no digits follow). -/
def shellreMatch (t : List Char) : Option (List Char × Char × Option (List Char)) :=
  match t with
  | c1 :: c2 :: rest =>
      if c1.isDigit = true ∧ c2 ∈ subshells then
        some ([c1], c2,
          if rest.takeWhile Char.isDigit = [] then none
          else some (rest.takeWhile Char.isDigit))
      else none
  | _ => none

/-- The noble-gas configuration table (source: `self.noble`). -/
def noble : List (List Char × List Char) :=
  [ ("He".toList, "1s2".toList),
    ("Ne".toList, "1s2 2s2 2p6".toList),
    ("Ar".toList, "1s2 2s2 2p6 3s2 3p6".toList),
    ("Kr".toList, "1s2 2s2 2p6 3s2 3p6 4s2 3d10 4p6".toList),
    ("Xe".toList, "1s2 2s2 2p6 3s2 3p6 4s2 3d10 4p6 5s2 4d10 5p6".toList),
    ("Rn".toList, "1s2 2s2 2p6 3s2 3p6 4s2 3d10 4p6 5s2 4d10 5p6 6s2 4f14 5d10 6p6".toList) ]

/-- One regex group triple turned into a dictionary item, as source
lines 613-614 do: `((int(n), s), int(e) if e is not None else 1)`. -/
def toEntry (g : List Char × Char × Option (List Char)) : Entry :=
  ((charsToNat g.1, g.2.1),
    match g.2.2 with
    | some ds => charsToNat ds
    | none => 1)

/-- The state the Python `ElectronicConfiguration` object holds after
`parse`: the `core`, `valence` and `conf` ordered dictionaries. -/
structure ElectronicConfiguration where
  core : List Entry
  valence : List Entry
  conf : List Entry
  deriving DecidableEq

/-- Model of `ElectronicConfiguration.parse` (source lines 598-615).
Tokenizes on whitespace; `citems[0]` on an empty list is an IndexError;
a bracketed first token is looked up in `noble` (KeyError when unknown)
and its configuration parsed into `core`; remaining matching tokens form
`valence`; `conf = OrderedDict(core.items() + valence.items())`. -/
def ElectronicConfiguration.parse (confstr : List Char) :
    Except Err ElectronicConfiguration :=
  match pysplit confstr with
  | [] => .error .indexError
  | t0 :: rest =>
      match atomreMatch t0 with
      | some symbol =>
          match noble.lookup symbol with
          | none => .error .unknownAbbreviation
          | some nstr =>
              let core := odictOfList (((pysplit nstr).filterMap shellreMatch).map toEntry)
              let valence := odictOfList ((rest.filterMap shellreMatch).map toEntry)
              .ok ⟨core, valence, odictOfList (core ++ valence)⟩
      | none =>
          let valence := odictOfList ((((t0 :: rest).filterMap shellreMatch)).map toEntry)
          .ok ⟨[], valence, odictOfList ([] ++ valence)⟩

/-- Python `subshells.index(c)` (the callers only use it on members). -/
def subshellIndex (c : Char) : Nat := subshells.findIdx (fun x => x == c)

/-- The Python sort key `lambda x: (x[0][0]+subshells.index(x[0][1]), x[0][0])`. -/
def sortKey (k : Nat × Char) : Nat × Nat := (k.1 + subshellIndex k.2, k.1)

/-- Non-strict lexicographic comparison of sort keys, the order Python's
stable `sorted` realizes on tuples. -/
def keyLe (a b : Entry) : Bool :=
  decide ((sortKey a.1).1 < (sortKey b.1).1 ∨
    ((sortKey a.1).1 = (sortKey b.1).1 ∧ (sortKey a.1).2 ≤ (sortKey b.1).2))

/-- `sorted(conf.items(), key=...)`: Python's sort is a stable mergesort. -/
def pySorted (l : List Entry) : List Entry := l.mergeSort keyLe

/-- Model of `ElectronicConfiguration.sort` (source lines 617-622).
With `inplace=True` the sorted dictionary replaces `conf`; with
`inplace=False` the sorted dictionary is computed and discarded (the Python
method returns `None` in both cases, so only the state is modeled). -/
def ElectronicConfiguration.sort (m : ElectronicConfiguration)
    (inplace : Bool := true) : ElectronicConfiguration :=
  if inplace then { m with conf := pySorted m.conf }
  else
    let discarded := pySorted m.conf
    m

/-- The rendering `"{n:d}{s:s}{e:d}"` of a single item of `conf2str`. -/
def renderEntry (kv : Entry) : List Char :=
  natToChars kv.1.1 ++ [kv.1.2] ++ natToChars kv.2

/-- Python `" ".join(pieces)`. -/
def joinSep : List (List Char) → List Char
  | [] => []
  | [t] => t
  | t :: ts => t ++ ' ' :: joinSep ts

/-- Model of the static method `conf2str` (source lines 636-639). -/
def ElectronicConfiguration.conf2str (d : List Entry) : List Char :=
  joinSep (d.map renderEntry)

/-- Model of `maxn` (source lines 645-647): Python `max` raises on an
empty sequence. -/
def ElectronicConfiguration.maxn (m : ElectronicConfiguration) : Except Err Int :=
  match m.conf.map (fun kv => (kv.1.1 : Int)) with
  | [] => .error .emptyConfMax
  | x :: xs => .ok (xs.foldl max x)

/-- Model of `ElectronicConfiguration.slater_screening` (source lines
649-681) over exact rationals: 0.3 = 3/10, 0.35 = 7/20, 0.85 = 17/20.
`k[0] in range(1, n-1)` is `1 ≤ k₀ < n-1`; `k[0] in range(1, n)` is
`1 ≤ k₀ < n`. -/
def ElectronicConfiguration.slater_screening (m : ElectronicConfiguration)
    (n : Int) (s : Char) : Except Err ℚ :=
  let coeff : ℚ := if n = 1 then 3/10 else 7/20
  if s = 's' ∨ s = 'p' then
    let vale : ℚ :=
      ((m.conf.filter (fun kv =>
          decide ((kv.1.1 : Int) = n ∧ (kv.1.2 = 's' ∨ kv.1.2 = 'p')))).map
        (fun kv => (kv.2 : ℚ))).sum - 1
    let n1 : ℚ :=
      ((m.conf.filter (fun kv => decide ((kv.1.1 : Int) = n - 1))).map
        (fun kv => (kv.2 : ℚ) * (17/20))).sum
    let n2 : ℚ :=
      ((m.conf.filter (fun kv =>
          decide (1 ≤ (kv.1.1 : Int) ∧ (kv.1.1 : Int) < n - 1))).map
        (fun kv => (kv.2 : ℚ))).sum
    .ok (n1 + n2 + vale * coeff)
  else if s = 'd' ∨ s = 'f' then
    let vale : ℚ :=
      ((m.conf.filter (fun kv =>
          decide ((kv.1.1 : Int) = n ∧ kv.1.2 = s))).map
        (fun kv => (kv.2 : ℚ))).sum - 1
    let n1 : ℚ :=
      ((m.conf.filter (fun kv =>
          decide ((kv.1.1 : Int) = n ∧ kv.1.2 ≠ s))).map
        (fun kv => (kv.2 : ℚ))).sum
    let n2 : ℚ :=
      ((m.conf.filter (fun kv =>
          decide (1 ≤ (kv.1.1 : Int) ∧ (kv.1.1 : Int) < n))).map
        (fun kv => (kv.2 : ℚ))).sum
    .ok (n1 + n2 + vale * coeff)
  else .error .wrongValenceSubshell

/-- The slice of the Python `Element` object the calculator reads:
atomic number, parsed configuration, the Clementi screening table
(`sconst`), the ionization-energy dictionary and the electron affinity. -/
structure Element where
  atomic_number : Int
  ec : ElectronicConfiguration
  sconst : Int × Char → Option ℚ
  ionenergies : Int → Option ℚ
  electron_affinity : Option ℚ

/-- Model of `Element.abselen` (source lines 205-230); `None` results are
`Option.none`, the negative-charge `raise` is `Err.invalidCharge`. -/
def Element.abselen (e : Element) (charge : Int) : Except Err (Option ℚ) :=
  if charge = 0 then
    match e.ionenergies 1, e.electron_affinity with
    | some i1, some a => .ok (some ((i1 + a) * (1/2)))
    | _, _ => .ok none
  else if charge > 0 then
    match e.ionenergies (charge + 1), e.ionenergies charge with
    | some i2, some i1 => .ok (some ((i2 + i1) * (1/2)))
    | _, _ => .ok none
  else .error .invalidCharge

/-- Model of `Element.hardness` (source lines 232-260). -/
def Element.hardness (e : Element) (charge : Int) : Except Err (Option ℚ) :=
  if charge = 0 then
    match e.ionenergies 1, e.electron_affinity with
    | some i1, some a => .ok (some ((i1 - a) * (1/2)))
    | _, _ => .ok none
  else if charge > 0 then
    match e.ionenergies (charge + 1), e.ionenergies charge with
    | some i2, some i1 => .ok (some ((i2 - i1) * (1/2)))
    | _, _ => .ok none
  else .error .invalidCharge

/-- Model of `Element.softness` (source lines 262-283): `eta = hardness(...)`,
`None` propagates, otherwise `1.0/(2.0*eta)` — a Python float division,
which raises ZeroDivisionError when the divisor `2.0*eta` is zero. -/
def Element.softness (e : Element) (charge : Int) : Except Err (Option ℚ) :=
  match e.hardness charge with
  | .error err => .error err
  | .ok none => .ok none
  | .ok (some eta) =>
      if 2 * eta = 0 then .error .zeroDivision else .ok (some (1 / (2 * eta)))

/-- The explicitly supplied `n` argument of `zeff`: Python accepts any
object there, and only `None` / `int` / everything else are distinguished
by the code (`n is None`, `isinstance(n, int)`). -/
inductive NArg where
  | omitted
  | int (i : Int)
  | nonInt

/-- The `n`-resolution block of `Element.zeff` (source lines 316-320):
`None` defaults to `maxn()`; a non-`int` hits the raise site. -/
def Element.zeffN (e : Element) (nArg : NArg) : Except Err Int :=
  match nArg with
  | .omitted => e.ec.maxn
  | .int i => .ok i
  | .nonInt => .error .invalidQuantumNumber

/-- The `s`-resolution block of `Element.zeff` (source lines 322-326):
`None` defaults to `subshells[max(subshells.index(x[1]) for x in conf if
x[0]==n)]` (Python `max` raises on an empty sequence, indexing can raise);
otherwise membership in `subshells` is checked. -/
def Element.zeffS (e : Element) (n : Int) (sArg : Option Char) : Except Err Char :=
  match sArg with
  | none =>
      match e.ec.conf.filterMap
          (fun kv => if (kv.1.1 : Int) = n then some (subshellIndex kv.1.2) else none) with
      | [] => .error .emptySubshellMax
      | i :: is =>
          match subshells[is.foldl max i]? with
          | some c => .ok c
          | none => .error .subshellIndexError
  | some c => if c ∈ subshells then .ok c else .error .invalidSubshell

/-- Python `method.lower()`. -/
def pyLower (s : List Char) : List Char := s.map Char.toLower

/-- The characters of the literal `'slater'`. -/
def slaterChars : List Char := "slater".toList

/-- The characters of the literal `'clementi'`. -/
def clementiChars : List Char := "clementi".toList

/-- The method-dispatch block of `Element.zeff` (source lines 328-333):
`method.lower()` is compared against `'slater'` and `'clementi'`; the
Clementi branch indexes `sconst` (KeyError when absent); anything else
hits the unsupported-method raise site. -/
def Element.zeffMethod (e : Element) (n : Int) (s : Char) (method : List Char) :
    Except Err ℚ :=
  if pyLower method = slaterChars then
    match e.ec.slater_screening n s with
    | .ok sc => .ok ((e.atomic_number : ℚ) - sc)
    | .error err => .error err
  else if pyLower method = clementiChars then
    match e.sconst (n, s) with
    | some sc => .ok ((e.atomic_number : ℚ) - sc)
    | none => .error .missingScreening
  else .error .unsupportedMethod

/-- Model of `Element.zeff` (source lines 291-333): resolve `n`, then `s`,
then dispatch on the method, propagating any raise. -/
def Element.zeff (e : Element) (nArg : NArg) (sArg : Option Char)
    (method : List Char) : Except Err ℚ :=
  match e.zeffN nArg with
  | .error err => .error err
  | .ok n =>
      match e.zeffS n sArg with
      | .error err => .error err
      | .ok s => e.zeffMethod n s method

/-- Modelled from the spec text of C1 (refinement target, deliberately
written from the spec's words rather than from the code): for a target
subshell in {s, p}, σ = innerCore + innerAdjacent + c·valenceCount with
valenceCount the occupancy sum at principal quantum number exactly `n`
and subshell in {s, p} minus one, innerAdjacent 0.85 times the occupancy
sum at `n-1`, innerCore the occupancy sum over `1 ≤ n' ≤ n-2`, and
c = 0.30 for `n = 1`, 0.35 otherwise. -/
def slaterScreeningSpec (conf : List Entry) (n : Int) : ℚ :=
  let valenceCount : ℚ :=
    ((conf.filter (fun kv =>
        decide ((kv.1.1 : Int) = n ∧ (kv.1.2 = 's' ∨ kv.1.2 = 'p')))).map
      (fun kv => (kv.2 : ℚ))).sum - 1
  let innerAdjacent : ℚ :=
    (17/20) * ((conf.filter (fun kv => decide ((kv.1.1 : Int) = n - 1))).map
      (fun kv => (kv.2 : ℚ))).sum
  let innerCore : ℚ :=
    ((conf.filter (fun kv =>
        decide (1 ≤ (kv.1.1 : Int) ∧ (kv.1.1 : Int) ≤ n - 2))).map
      (fun kv => (kv.2 : ℚ))).sum
  let c : ℚ := if n = 1 then 3/10 else 7/20
  innerCore + innerAdjacent + c * valenceCount

/-! ### Helper lemmas about parsing whitespace -/

/-- Splitting a string of whitespace only yields no tokens. -/
theorem pysplitAux_nil_of_space (s : List Char) (h : ∀ c ∈ s, pyIsSpace c = true) :
    pysplitAux s [] = [] := by
  induction s with
  | nil => rfl
  | cons c cs ih =>
      have hc := h c (List.mem_cons_self c cs)
      simp only [pysplitAux, hc, if_true, if_pos rfl]
      exact ih (fun x hx => h x (List.mem_cons_of_mem c hx))

/-! ### Claim C2 -/

/-- Claim C2, amended: for every input string that is empty or consists
only of whitespace, `parse` raises (the IndexError from `citems[0]`)
rather than returning an empty `ShellModel`. -/
theorem claim_C2 (s : List Char) (h : ∀ c ∈ s, pyIsSpace c = true) :
    ElectronicConfiguration.parse s = .error .indexError := by
  unfold ElectronicConfiguration.parse pysplit
  rw [pysplitAux_nil_of_space s h]

/-- Claim C2 counterexample: on the empty string the claim asserts an
empty shell model is returned, but the source raises an IndexError. -/
theorem claim_C2_counterexample :
    ElectronicConfiguration.parse [] = .error .indexError ∧
      ElectronicConfiguration.parse [] ≠ .ok ⟨[], [], []⟩ :=
  ⟨rfl, fun h => Except.noConfusion h⟩

/-- Claim C2 witness: the amended theorem applied to a whitespace string. -/
theorem claim_C2_witness :
    (∀ c ∈ [' ', '\t'], pyIsSpace c = true) ∧
      ElectronicConfiguration.parse [' ', '\t'] = .error .indexError :=
  ⟨by decide, claim_C2 [' ', '\t'] (by decide)⟩

/-! ### Claim C9 -/

/-- Claim C9: `sort` with `inplace=False` leaves the whole model — in
particular the `conf` mapping, content and iteration order — unchanged
(the sorted copy is computed and discarded, and the Python method returns
`None` either way); only `inplace=True` replaces `conf` with its sorted
items. -/
theorem claim_C9 (m : ElectronicConfiguration) :
    m.sort false = m ∧ (m.sort true).conf = pySorted m.conf :=
  ⟨rfl, rfl⟩

/-! ### Claim C5 -/

/-- Claim C5: at charge 0, `abselen` returns `(I₁ + A)/2` when both the
first ionization energy and the electron affinity are present, and an
absent value (not an error) when either is missing. -/
theorem claim_C5 (e : Element) :
    (∀ i1 a : ℚ, e.ionenergies 1 = some i1 → e.electron_affinity = some a →
        e.abselen 0 = .ok (some ((i1 + a) * (1/2)))) ∧
    ((e.ionenergies 1 = none ∨ e.electron_affinity = none) →
        e.abselen 0 = .ok none) := by
  constructor
  · intro i1 a h1 h2
    unfold Element.abselen
    rw [if_pos rfl, h1, h2]
  · intro h
    unfold Element.abselen
    rw [if_pos rfl]
    rcases h with h | h
    · rw [h]
    · rw [h]
      cases e.ionenergies 1 <;> rfl

/-- Dictionary with one ionization energy, degree 1 ↦ 13.6 eV (= 68/5). -/
def ionH : Int → Option ℚ := fun d => if d = 1 then some (68/5) else none

/-- A concrete element record with I₁ = 13.6 eV and A = 0.75 eV. -/
def elemH : Element := ⟨1, ⟨[], [], []⟩, fun _ => none, ionH, some (3/4)⟩

/-- Claim C5 witness: the spec's own example, I₁ = 13.6, A = 0.75. -/
theorem claim_C5_witness :
    elemH.ionenergies 1 = some (68/5) ∧ elemH.electron_affinity = some (3/4) ∧
      elemH.abselen 0 = .ok (some ((68/5 + 3/4) * (1/2))) :=
  ⟨rfl, rfl, (claim_C5 elemH).1 (68/5) (3/4) rfl rfl⟩

/-! ### Claims C6 and C10: softness vs hardness -/

/-- Dictionary with one ionization energy, degree 1 ↦ 1 eV. -/
def ionOne : Int → Option ℚ := fun d => if d = 1 then some 1 else none

/-- A concrete element with I₁ = A = 1 eV, hence hardness exactly 0. -/
def elemZero : Element := ⟨1, ⟨[], [], []⟩, fun _ => none, ionOne, some 1⟩

/-- Claim C6 counterexample: at this element hardness is computable and
equals 0, but softness raises ZeroDivisionError instead of returning
1/(2·hardness) as the claim states. -/
theorem claim_C6_counterexample :
    elemZero.hardness 0 = .ok (some 0) ∧
      elemZero.softness 0 = .error .zeroDivision ∧
      elemZero.softness 0 ≠ .ok (some (1 / (2 * 0))) := by
  have h : elemZero.hardness 0 = .ok (some 0) := by
    unfold Element.hardness
    rw [if_pos rfl]
    show (Except.ok (some (((1:ℚ) - 1) * (1/2))) : Except Err (Option ℚ)) =
      Except.ok (some 0)
    norm_num
  have h2 : elemZero.softness 0 = .error .zeroDivision := by
    have hs : elemZero.softness 0 =
        if 2 * (0:ℚ) = 0 then .error .zeroDivision
        else .ok (some (1 / (2 * (0:ℚ)))) := by
      unfold Element.softness
      rw [h]
    rw [hs, if_pos (by norm_num)]
  exact ⟨h, h2, by rw [h2]; exact fun hh => Except.noConfusion hh⟩

/-- Claim C6, amended: softness mirrors hardness — absent when hardness is
absent, equal to 1/(2·hardness) when hardness is computable and nonzero;
when hardness is computable and equals 0 the division raises instead
(see C10). -/
theorem claim_C6 (e : Element) (charge : Int) :
    (e.hardness charge = .ok none → e.softness charge = .ok none) ∧
    (∀ eta : ℚ, e.hardness charge = .ok (some eta) → eta ≠ 0 →
        e.softness charge = .ok (some (1 / (2 * eta)))) := by
  constructor
  · intro h
    unfold Element.softness
    rw [h]
  · intro eta h hne
    have hs : e.softness charge =
        if 2 * eta = 0 then .error .zeroDivision
        else .ok (some (1 / (2 * eta))) := by
      unfold Element.softness
      rw [h]
    rw [hs, if_neg (by simp [mul_eq_zero, hne])]

/-- Claim C6 witness: the amended theorem at I₁ = 13.6, A = 0.75, where
hardness is 257/40 ≠ 0. -/
theorem claim_C6_witness :
    elemH.hardness 0 = .ok (some (257/40)) ∧ (257/40 : ℚ) ≠ 0 ∧
      elemH.softness 0 = .ok (some (1 / (2 * (257/40 : ℚ)))) := by
  have h : elemH.hardness 0 = .ok (some (257/40)) := by
    unfold Element.hardness
    rw [if_pos rfl]
    show (Except.ok (some (((68/5:ℚ) - 3/4) * (1/2))) : Except Err (Option ℚ)) =
      Except.ok (some (257/40))
    norm_num
  exact ⟨h, by norm_num, (claim_C6 elemH 0).2 (257/40) h (by norm_num)⟩

/-- Claim C10: whenever hardness is computable and equals exactly 0,
softness hits the unguarded division `1.0/(2.0*eta)` and raises a
division-by-zero error instead of returning an absent or sentinel value. -/
theorem claim_C10 (e : Element) (charge : Int)
    (h : e.hardness charge = .ok (some 0)) :
    e.softness charge = .error .zeroDivision := by
  have hs : e.softness charge =
      if 2 * (0:ℚ) = 0 then .error .zeroDivision
      else .ok (some (1 / (2 * (0:ℚ)))) := by
    unfold Element.softness
    rw [h]
  rw [hs, if_pos (by norm_num)]

/-- Claim C10 witness: the theorem at the concrete element with
I₁ = A = 1 eV. -/
theorem claim_C10_witness :
    elemZero.hardness 0 = .ok (some 0) ∧
      elemZero.softness 0 = .error .zeroDivision := by
  have h : elemZero.hardness 0 = .ok (some 0) := by
    unfold Element.hardness
    rw [if_pos rfl]
    show (Except.ok (some (((1:ℚ) - 1) * (1/2))) : Except Err (Option ℚ)) =
      Except.ok (some 0)
    norm_num
  exact ⟨h, claim_C10 elemZero 0 h⟩

/-! ### Claims C7 and C8: argument checking in `zeff` -/

/-- The `s`-resolution block never produces the invalid-quantum-number
error (its raise sites are the subshell ones). -/
theorem zeffS_ne_iqn (e : Element) (n : Int) (sArg : Option Char) :
    e.zeffS n sArg ≠ .error Err.invalidQuantumNumber := by
  rcases sArg with _ | c
  · have hred : e.zeffS n none =
        match e.ec.conf.filterMap
            (fun kv => if (kv.1.1 : Int) = n then some (subshellIndex kv.1.2) else none) with
        | [] => Except.error Err.emptySubshellMax
        | i :: is =>
            match subshells[is.foldl max i]? with
            | some c => Except.ok c
            | none => Except.error Err.subshellIndexError := rfl
    rw [hred]
    split
    · simp
    · split <;> simp
  · have hred : e.zeffS n (some c) =
        if c ∈ subshells then .ok c else .error .invalidSubshell := rfl
    rw [hred]
    by_cases hc : c ∈ subshells <;> simp [hc]

/-- `slater_screening` never produces the invalid-quantum-number error. -/
theorem slater_screening_ne_iqn (m : ElectronicConfiguration) (n : Int) (s : Char) :
    m.slater_screening n s ≠ .error Err.invalidQuantumNumber := by
  unfold ElectronicConfiguration.slater_screening
  by_cases h1 : s = 's' ∨ s = 'p'
  · simp [h1]
  · by_cases h2 : s = 'd' ∨ s = 'f' <;> simp [h1, h2]

/-- The method-dispatch block never produces the invalid-quantum-number
error. -/
theorem zeffMethod_ne_iqn (e : Element) (n : Int) (s : Char) (method : List Char) :
    e.zeffMethod n s method ≠ .error Err.invalidQuantumNumber := by
  unfold Element.zeffMethod
  by_cases h1 : pyLower method = slaterChars
  · rw [if_pos h1]
    cases hS : e.ec.slater_screening n s with
    | ok sc => simp
    | error err =>
        have := slater_screening_ne_iqn e.ec n s
        rw [hS] at this
        simpa using this
  · rw [if_neg h1]
    by_cases h2 : pyLower method = clementiChars
    · rw [if_pos h2]
      cases e.sconst (n, s) <;> simp
    · rw [if_neg h2]
      simp

/-- Claim C7, amended: `zeff` raises the invalid-quantum-number error
exactly for an explicitly supplied `n` that is not of integer type; an
integer `n` — including 0 and negative integers — passes the
`isinstance(n, int)` check, and no later step of `zeff` raises that
error. -/
theorem claim_C7 (e : Element) (sArg : Option Char) (method : List Char) :
    e.zeff .nonInt sArg method = .error .invalidQuantumNumber ∧
    ∀ i : Int, e.zeff (.int i) sArg method ≠ .error .invalidQuantumNumber := by
  constructor
  · rfl
  · intro i h
    have hz : e.zeff (.int i) sArg method =
        match e.zeffS i sArg with
        | .error err => .error err
        | .ok s => e.zeffMethod i s method := rfl
    cases hS : e.zeffS i sArg with
    | error err =>
        rw [hz, hS] at h
        have herr : err = Err.invalidQuantumNumber := by simpa using h
        exact zeffS_ne_iqn e i sArg (by rw [hS, herr])
    | ok s =>
        rw [hz, hS] at h
        exact zeffMethod_ne_iqn e i s method (by simpa using h)

/-- The element used in the C7/C8 counterexamples: Z = 1, conf 1s1. -/
def el7 : Element := ⟨1, ⟨[], [], [((1,'s'),1)]⟩, fun _ => none, fun _ => none, none⟩

/-- Claim C7 counterexample: n = 0 is not a positive integer, yet `zeff`
accepts it (only `isinstance(n, int)` is checked) and returns
Z − σ = 1 − (−7/20) = 27/20 instead of raising the claimed error. -/
theorem claim_C7_counterexample :
    el7.zeff (.int 0) (some 's') slaterChars = .ok (27/20) ∧
      el7.zeff (.int 0) (some 's') slaterChars ≠ .error .invalidQuantumNumber := by
  have h : el7.zeff (.int 0) (some 's') slaterChars = .ok (27/20) := by
    have h1 : el7.zeff (.int 0) (some 's') slaterChars =
        el7.zeffMethod 0 's' slaterChars := rfl
    have h2 : el7.ec.slater_screening 0 's' =
        .ok ((0:ℚ) + 0 + ((0:ℚ) - 1) * (7/20)) := by
      unfold ElectronicConfiguration.slater_screening
      norm_num [el7]
    have h3 : el7.zeffMethod 0 's' slaterChars =
        .ok ((el7.atomic_number : ℚ) - ((0:ℚ) + 0 + ((0:ℚ) - 1) * (7/20))) := by
      unfold Element.zeffMethod
      rw [if_pos (show pyLower slaterChars = slaterChars from rfl), h2]
    rw [h1, h3]
    show (Except.ok ((el7.atomic_number : ℚ) - ((0:ℚ) + 0 + ((0:ℚ) - 1) * (7/20))) :
        Except Err ℚ) = Except.ok (27/20)
    norm_num [el7]
  exact ⟨h, by rw [h]; exact fun hh => Except.noConfusion hh⟩

/-- Claim C8, amended: method matching lowercases the string first — for
every method string whose lowercased form is neither `slater` nor
`clementi`, `zeff` (called with an integer `n` and a valid subshell `s`,
so that the earlier argument checks pass) fails with the
unsupported-method error; strings such as `"Slater"` are accepted. -/
theorem claim_C8 (e : Element) (i : Int) (c : Char) (method : List Char)
    (hc : c ∈ subshells)
    (hm1 : pyLower method ≠ slaterChars) (hm2 : pyLower method ≠ clementiChars) :
    e.zeff (.int i) (some c) method = .error .unsupportedMethod := by
  have hz : e.zeff (.int i) (some c) method =
      match e.zeffS i (some c) with
      | .error err => .error err
      | .ok s => e.zeffMethod i s method := rfl
  have hs : e.zeffS i (some c) = .ok c := by
    have hred : e.zeffS i (some c) =
        if c ∈ subshells then .ok c else .error .invalidSubshell := rfl
    rw [hred, if_pos hc]
  rw [hz, hs]
  show e.zeffMethod i c method = .error .unsupportedMethod
  unfold Element.zeffMethod
  rw [if_neg hm1, if_neg hm2]

/-- Claim C8 witness: the amended theorem at a method string whose
lowercase form is not recognized. -/
theorem claim_C8_witness :
    ('s' ∈ subshells) ∧ pyLower ("foo".toList) ≠ slaterChars ∧
      pyLower ("foo".toList) ≠ clementiChars ∧
      el7.zeff (.int 1) (some 's') ("foo".toList) = .error .unsupportedMethod :=
  ⟨by decide, by decide, by decide,
    claim_C8 el7 1 's' ("foo".toList) (by decide) (by decide) (by decide)⟩

/-- Claim C8 counterexample: `"Slater"` differs from both `"slater"` and
`"clementi"`, yet `zeff` succeeds (the code compares `method.lower()`),
so the claim as stated — any method string other than exactly those two
raises — is false. -/
theorem claim_C8_counterexample :
    ("Slater".toList ≠ slaterChars) ∧ ("Slater".toList ≠ clementiChars) ∧
      el7.zeff (.int 1) (some 's') ("Slater".toList) ≠
        .error .unsupportedMethod := by
  refine ⟨by decide, by decide, ?_⟩
  have h : el7.zeff (.int 1) (some 's') ("Slater".toList) =
      el7.zeffMethod 1 's' ("Slater".toList) := rfl
  have h2 : el7.ec.slater_screening 1 's' =
      .ok ((0:ℚ) + 0 + ((1:ℚ) - 1) * (3/10)) := by
    unfold ElectronicConfiguration.slater_screening
    norm_num [el7]
  have h3 : el7.zeffMethod 1 's' ("Slater".toList) =
      .ok ((el7.atomic_number : ℚ) - ((0:ℚ) + 0 + ((1:ℚ) - 1) * (3/10))) := by
    unfold Element.zeffMethod
    rw [if_pos (show pyLower ("Slater".toList) = slaterChars from rfl), h2]
  rw [h, h3]
  exact fun hh => Except.noConfusion hh

/-! ### Claim C1: Slater screening for s/p targets -/

/-- Claim C1: for every shell model, every target subshell s ∈ {s, p} and
every n ≥ 1, the screening constant computed by `slater_screening` equals
the spec's innerCore + innerAdjacent + c·valenceCount (with c = 0.30 for
n = 1 and 0.35 otherwise), and `zeff` with method `slater` returns the
atomic number minus that screening constant. -/
theorem claim_C1 (e : Element) (n : Int) (s : Char)
    (hn : 1 ≤ n) (hs : s = 's' ∨ s = 'p') :
    e.ec.slater_screening n s = .ok (slaterScreeningSpec e.ec.conf n) ∧
    e.zeff (.int n) (some s) slaterChars =
      .ok ((e.atomic_number : ℚ) - slaterScreeningSpec e.ec.conf n) := by
  have hscr : e.ec.slater_screening n s = .ok (slaterScreeningSpec e.ec.conf n) := by
    simp only [ElectronicConfiguration.slater_screening, slaterScreeningSpec]
    rw [if_pos hs]
    congr 1
    have hfil :
        e.ec.conf.filter
            (fun kv => decide (1 ≤ (kv.1.1:Int) ∧ (kv.1.1:Int) < n - 1)) =
          e.ec.conf.filter
            (fun kv => decide (1 ≤ (kv.1.1:Int) ∧ (kv.1.1:Int) ≤ n - 2)) := by
      apply List.filter_congr
      intro x _
      rw [decide_eq_decide]
      omega
    rw [hfil, List.sum_map_mul_right]
    ring
  refine ⟨hscr, ?_⟩
  have hz : e.zeff (.int n) (some s) slaterChars =
      match e.zeffS n (some s) with
      | .error err => .error err
      | .ok s2 => e.zeffMethod n s2 slaterChars := rfl
  have hsub : s ∈ subshells := by rcases hs with rfl | rfl <;> decide
  have hS : e.zeffS n (some s) = .ok s := by
    have hred : e.zeffS n (some s) =
        if s ∈ subshells then .ok s else .error .invalidSubshell := rfl
    rw [hred, if_pos hsub]
  rw [hz, hS]
  show e.zeffMethod n s slaterChars = _
  unfold Element.zeffMethod
  rw [if_pos (show pyLower slaterChars = slaterChars from rfl), hscr]

/-- Sodium-like concrete element: Z = 11, configuration 1s2 2s2 2p6 3s1. -/
def elemNa : Element :=
  ⟨11, ⟨[], [], [((1,'s'),2), ((2,'s'),2), ((2,'p'),6), ((3,'s'),1)]⟩,
    fun _ => none, fun _ => none, none⟩

/-- Claim C1 witness: the theorem at the spec's sodium example (n=3, s=s). -/
theorem claim_C1_witness :
    (1 ≤ (3:Int) ∧ ('s' = 's' ∨ 's' = 'p')) ∧
      (elemNa.ec.slater_screening 3 's' = .ok (slaterScreeningSpec elemNa.ec.conf 3) ∧
        elemNa.zeff (.int 3) (some 's') slaterChars =
          .ok ((elemNa.atomic_number : ℚ) - slaterScreeningSpec elemNa.ec.conf 3)) :=
  ⟨⟨by decide, Or.inl rfl⟩, claim_C1 elemNa 3 's' (by decide) (Or.inl rfl)⟩

/-! ### Ordered-dictionary algebra -/

/-- Unfolding one insertion step of `insertAll`. -/
theorem insertAll_cons (d : List Entry) (x : Entry) (l : List Entry) :
    insertAll d (x :: l) = insertAll (odictInsert d x) l := rfl

/-- `insertAll` over an appended list is sequential insertion. -/
theorem insertAll_append (d : List Entry) (l m : List Entry) :
    insertAll d (l ++ m) = insertAll (insertAll d l) m := by
  unfold insertAll
  exact List.foldl_append odictInsert d l m

/-- `keysOf` on an empty dictionary. -/
theorem keysOf_nil : keysOf [] = [] := rfl

/-- `keysOf` on a nonempty dictionary. -/
theorem keysOf_cons (y : Entry) (t : List Entry) :
    keysOf (y :: t) = y.1 :: keysOf t := rfl

/-- A member's key is in the key sequence. -/
theorem mem_keysOf_of_mem {z : Entry} {d : List Entry} (h : z ∈ d) :
    z.1 ∈ keysOf d :=
  List.mem_map_of_mem Prod.fst h

/-- `setVal` never changes the key sequence. -/
theorem keysOf_setVal (k : Nat × Char) (v : Nat) :
    ∀ d : List Entry, keysOf (setVal d k v) = keysOf d := by
  intro d
  induction d with
  | nil => rfl
  | cons y t ih =>
      by_cases h : y.1 = k
      · simp [setVal, h, keysOf_cons]
      · simp [setVal, h, keysOf_cons, ih]

/-- Updating the value just written by an insertion. -/
theorem setVal_odictInsert (k : Nat × Char) (a b : Nat) :
    ∀ d : List Entry, setVal (odictInsert d (k, a)) k b = odictInsert d (k, b) := by
  intro d
  induction d with
  | nil => simp [odictInsert, setVal]
  | cons y t ih =>
      by_cases h : y.1 = k
      · simp [odictInsert, setVal, h]
      · simp [odictInsert, setVal, h, ih]

/-- Insertion at one key commutes with a value update at a different key. -/
theorem odictInsert_setVal_comm (k : Nat × Char) (b : Nat) (x : Entry) (hx : x.1 ≠ k) :
    ∀ d : List Entry, odictInsert (setVal d k b) x = setVal (odictInsert d x) k b := by
  rcases x with ⟨xk, xv⟩
  simp only at hx
  intro d
  induction d with
  | nil => simp [odictInsert, setVal, hx]
  | cons y t ih =>
      rcases y with ⟨yk, yv⟩
      by_cases h1 : yk = k
      · subst h1
        simp [odictInsert, setVal, hx, Ne.symm hx]
      · by_cases h2 : yk = xk
        · subst h2
          simp [odictInsert, setVal, h1]
        · simp [odictInsert, setVal, h1, h2, ih]

/-- A value update at a key absent from the inserted list commutes out of
`insertAll`. -/
theorem insertAll_setVal (k : Nat × Char) (b : Nat) :
    ∀ (M d : List Entry), (∀ y ∈ M, y.1 ≠ k) →
      insertAll (setVal d k b) M = setVal (insertAll d M) k b := by
  intro M
  induction M with
  | nil => intro d _; rfl
  | cons z M' ih =>
      intro d h
      have hz : z.1 ≠ k := h z (List.mem_cons_self z M')
      rw [insertAll_cons, odictInsert_setVal_comm k b z hz d, insertAll_cons]
      exact ih (odictInsert d z) (fun y hy => h y (List.mem_cons_of_mem z hy))

/-- The inserted key is present afterwards. -/
theorem mem_keysOf_odictInsert (x : Entry) :
    ∀ d : List Entry, x.1 ∈ keysOf (odictInsert d x) := by
  intro d
  induction d with
  | nil => simp [odictInsert, keysOf_cons, keysOf_nil]
  | cons y t ih =>
      by_cases h : y.1 = x.1
      · simp [odictInsert, h, keysOf_cons]
      · simp only [odictInsert, if_neg h, keysOf_cons, List.mem_cons]
        exact Or.inr ih

/-- Insertion preserves the presence of any key. -/
theorem mem_keysOf_odictInsert_of_mem (k : Nat × Char) (z : Entry) :
    ∀ d : List Entry, k ∈ keysOf d → k ∈ keysOf (odictInsert d z) := by
  intro d
  induction d with
  | nil => intro h; cases h
  | cons y t ih =>
      intro h
      rw [keysOf_cons, List.mem_cons] at h
      by_cases hz : y.1 = z.1
      · have : odictInsert (y :: t) z = (y.1, z.2) :: t := by simp [odictInsert, hz]
        rw [this, keysOf_cons, List.mem_cons]
        simpa using h
      · have : odictInsert (y :: t) z = y :: odictInsert t z := by simp [odictInsert, hz]
        rw [this, keysOf_cons, List.mem_cons]
        rcases h with h | h
        · exact Or.inl h
        · exact Or.inr (ih h)

/-- `insertAll` preserves the presence of any key. -/
theorem mem_keysOf_insertAll (k : Nat × Char) :
    ∀ (M d : List Entry), k ∈ keysOf d → k ∈ keysOf (insertAll d M) := by
  intro M
  induction M with
  | nil => intro d h; exact h
  | cons z M' ih =>
      intro d h
      rw [insertAll_cons]
      exact ih (odictInsert d z) (mem_keysOf_odictInsert_of_mem k z d h)

/-- Inserting an already-present key is a value update in place. -/
theorem odictInsert_eq_setVal (x : Entry) :
    ∀ d : List Entry, x.1 ∈ keysOf d → odictInsert d x = setVal d x.1 x.2 := by
  intro d
  induction d with
  | nil => intro h; cases h
  | cons y t ih =>
      intro h
      by_cases hy : y.1 = x.1
      · simp [odictInsert, setVal, hy]
      · have hm : x.1 ∈ keysOf t := by
          rw [keysOf_cons, List.mem_cons] at h
          rcases h with h | h
          · exact absurd h.symm hy
          · exact h
        simp [odictInsert, setVal, hy, ih hm]

/-- The key sequence after an insertion. -/
theorem keysOf_odictInsert (x : Entry) :
    ∀ d : List Entry, keysOf (odictInsert d x) =
      if x.1 ∈ keysOf d then keysOf d else keysOf d ++ [x.1] := by
  intro d
  induction d with
  | nil => simp [odictInsert, keysOf_cons, keysOf_nil]
  | cons y t ih =>
      by_cases hy : y.1 = x.1
      · have : odictInsert (y :: t) x = (y.1, x.2) :: t := by simp [odictInsert, hy]
        rw [this, keysOf_cons, keysOf_cons, if_pos]
        rw [List.mem_cons]
        exact Or.inl hy.symm
      · have hyx : ¬ x.1 = y.1 := fun hh => hy hh.symm
        have : odictInsert (y :: t) x = y :: odictInsert t x := by simp [odictInsert, hy]
        rw [this, keysOf_cons, ih, keysOf_cons]
        by_cases hm : x.1 ∈ keysOf t
        · rw [if_pos hm, if_pos (by rw [List.mem_cons]; exact Or.inr hm)]
        · rw [if_neg hm, if_neg (by rw [List.mem_cons]; exact fun h => h.elim hyx hm)]
          rfl

/-- Insertion preserves key-sequence distinctness. -/
theorem keysOf_odictInsert_nodup (x : Entry) (d : List Entry)
    (h : (keysOf d).Nodup) : (keysOf (odictInsert d x)).Nodup := by
  rw [keysOf_odictInsert]
  by_cases hm : x.1 ∈ keysOf d
  · simpa [hm] using h
  · simp [hm, List.nodup_append, h]

/-- `insertAll` preserves key-sequence distinctness. -/
theorem nodup_keysOf_insertAll :
    ∀ (M d : List Entry), (keysOf d).Nodup → (keysOf (insertAll d M)).Nodup := by
  intro M
  induction M with
  | nil => intro d h; exact h
  | cons x M' ih =>
      intro d h
      rw [insertAll_cons]
      exact ih _ (keysOf_odictInsert_nodup x d h)

/-- Any built ordered dictionary has distinct keys. -/
theorem nodup_keysOf_odictOfList (l : List Entry) : (keysOf (odictOfList l)).Nodup :=
  nodup_keysOf_insertAll l [] List.nodup_nil

/-- Inserting into a dictionary with distinct keys commutes with
flushing the dictionary through `insertAll`. -/
theorem insertAll_odictInsert (x : Entry) :
    ∀ e : List Entry, (keysOf e).Nodup →
      ∀ d : List Entry, insertAll d (odictInsert e x) = odictInsert (insertAll d e) x := by
  rcases x with ⟨xk, xv⟩
  intro e
  induction e with
  | nil => intro _ d; rfl
  | cons y e' ih =>
      intro hnd d
      rw [keysOf_cons, List.nodup_cons] at hnd
      have hy : y.1 ∉ keysOf e' := hnd.1
      have hnd' : (keysOf e').Nodup := hnd.2
      by_cases h : y.1 = xk
      · have h1 : odictInsert (y :: e') (xk, xv) = (y.1, xv) :: e' := by
          simp [odictInsert, h]
        rw [h1, insertAll_cons, insertAll_cons]
        have h2 : xk ∈ keysOf (insertAll (odictInsert d y) e') := by
          apply mem_keysOf_insertAll
          rw [← h]
          exact mem_keysOf_odictInsert y d
        rw [odictInsert_eq_setVal (xk, xv) _ h2]
        have h3 : ∀ z ∈ e', z.1 ≠ xk := by
          intro z hz hc
          exact hy (h ▸ hc ▸ mem_keysOf_of_mem hz)
        rw [← insertAll_setVal xk xv e' (odictInsert d y) h3]
        have h4 : setVal (odictInsert d y) xk xv = odictInsert d (y.1, xv) := by
          rcases y with ⟨yk, yv⟩
          simp only at h
          subst h
          exact setVal_odictInsert yk yv xv d
        rw [h4]
      · have h1 : odictInsert (y :: e') (xk, xv) = y :: odictInsert e' (xk, xv) := by
          simp [odictInsert, h]
        rw [h1, insertAll_cons, insertAll_cons]
        exact ih hnd' (odictInsert d y)

/-- Flushing a built dictionary through `insertAll` is the same as
inserting the raw pair list (generalized associativity of dictionary
construction). -/
theorem insertAll_insertAll :
    ∀ (R d e : List Entry), (keysOf e).Nodup →
      insertAll d (insertAll e R) = insertAll (insertAll d e) R := by
  intro R
  induction R with
  | nil => intro d e _; rfl
  | cons x R' ih =>
      intro d e hnd
      calc insertAll d (insertAll e (x :: R'))
          = insertAll d (insertAll (odictInsert e x) R') := by rw [insertAll_cons]
        _ = insertAll (insertAll d (odictInsert e x)) R' :=
            ih d (odictInsert e x) (keysOf_odictInsert_nodup x e hnd)
        _ = insertAll (odictInsert (insertAll d e) x) R' := by
            rw [insertAll_odictInsert x e hnd d]
        _ = insertAll (insertAll d e) (x :: R') := by rw [insertAll_cons]

/-- Inserting a list whose keys avoid the head leaves the head in place. -/
theorem insertAll_cons_of_not_mem (y : Entry) :
    ∀ (M d : List Entry), (∀ z ∈ M, z.1 ≠ y.1) →
      insertAll (y :: d) M = y :: insertAll d M := by
  intro M
  induction M with
  | nil => intro d _; rfl
  | cons z M' ih =>
      intro d h
      have hz : ¬ y.1 = z.1 := fun hh => h z (List.mem_cons_self z M') hh.symm
      have h1 : odictInsert (y :: d) z = y :: odictInsert d z := by
        simp [odictInsert, hz]
      rw [insertAll_cons, h1,
        ih (odictInsert d z) (fun w hw => h w (List.mem_cons_of_mem z hw)), insertAll_cons]

/-- Building an ordered dictionary from a pair list with distinct keys
reproduces the list itself. -/
theorem insertAll_nil_of_nodup :
    ∀ N : List Entry, (keysOf N).Nodup → insertAll [] N = N := by
  intro N
  induction N with
  | nil => intro _; rfl
  | cons y N' ih =>
      intro h
      rw [keysOf_cons, List.nodup_cons] at h
      have hy : ∀ z ∈ N', z.1 ≠ y.1 := by
        intro z hz hc
        exact h.1 (hc ▸ mem_keysOf_of_mem hz)
      rw [insertAll_cons]
      show insertAll (y :: []) N' = y :: N'
      rw [insertAll_cons_of_not_mem y N' [] hy, ih h.2]

/-! ### Claim C4: noble-gas abbreviation expansion -/

/-- The shape of `parse` on a string whose first token is a recognized
noble-gas abbreviation. -/
theorem parse_eq_abbrev (sa t0 : List Char) (R : List (List Char))
    (sym cfg : List Char)
    (hs : pysplit sa = t0 :: R) (hm : atomreMatch t0 = some sym)
    (hl : noble.lookup sym = some cfg) :
    ElectronicConfiguration.parse sa =
      .ok ⟨odictOfList (((pysplit cfg).filterMap shellreMatch).map toEntry),
           odictOfList ((R.filterMap shellreMatch).map toEntry),
           odictOfList (odictOfList (((pysplit cfg).filterMap shellreMatch).map toEntry) ++
             odictOfList ((R.filterMap shellreMatch).map toEntry))⟩ := by
  simp only [ElectronicConfiguration.parse, hs, hm, hl]

/-- The shape of `parse` on a string whose first token is not bracketed,
with the token list split as a concatenation. -/
theorem parse_eq_plain_append (se c0 : List Char) (crest R : List (List Char))
    (hs : pysplit se = (c0 :: crest) ++ R) (hm : atomreMatch c0 = none) :
    ElectronicConfiguration.parse se =
      .ok ⟨[],
           odictOfList ((((c0 :: crest) ++ R).filterMap shellreMatch).map toEntry),
           odictOfList ([] ++
             odictOfList ((((c0 :: crest) ++ R).filterMap shellreMatch).map toEntry))⟩ := by
  simp only [ElectronicConfiguration.parse, hs, List.cons_append, hm]

/-- The dictionary identity behind abbreviation expansion: building `conf`
from a built core dictionary followed by a built valence dictionary is the
same as building it from the concatenated raw shell lists. -/
theorem conf_abbrev_eq (NS V : List Entry) :
    odictOfList (odictOfList NS ++ odictOfList V) =
      odictOfList ([] ++ odictOfList (NS ++ V)) := by
  have hN : insertAll [] (odictOfList NS) = odictOfList NS :=
    insertAll_nil_of_nodup _ (nodup_keysOf_odictOfList NS)
  calc odictOfList (odictOfList NS ++ odictOfList V)
      = insertAll (insertAll [] (odictOfList NS)) (odictOfList V) :=
        insertAll_append [] (odictOfList NS) (odictOfList V)
    _ = insertAll (odictOfList NS) (insertAll [] V) := by rw [hN]; exact rfl
    _ = insertAll (insertAll (odictOfList NS) []) V :=
        insertAll_insertAll V (odictOfList NS) [] List.nodup_nil
    _ = insertAll [] (NS ++ V) := (insertAll_append [] NS V).symm
    _ = insertAll [] (insertAll [] (NS ++ V)) :=
        (insertAll_insertAll (NS ++ V) [] [] List.nodup_nil).symm
    _ = odictOfList ([] ++ odictOfList (NS ++ V)) := by
        rw [List.nil_append]; exact rfl

/-- Claim C4: parsing a configuration string that abbreviates a noble-gas
core yields the same `conf` mapping (same keys, occupancies and order) as
parsing the fully expanded string, for every recognized noble gas and
every list of remaining tokens. -/
theorem claim_C4 (g cfg : List Char) (R : List (List Char)) (sa se : List Char)
    (hg : (g, cfg) ∈ noble)
    (ha : pysplit sa = ('[' :: (g ++ [']'])) :: R)
    (he : pysplit se = pysplit cfg ++ R) :
    ∃ ma me, ElectronicConfiguration.parse sa = .ok ma ∧
      ElectronicConfiguration.parse se = .ok me ∧ ma.conf = me.conf := by
  simp only [noble, List.mem_cons, List.not_mem_nil, or_false, Prod.mk.injEq] at hg
  rcases hg with ⟨rfl, rfl⟩ | ⟨rfl, rfl⟩ | ⟨rfl, rfl⟩ | ⟨rfl, rfl⟩ | ⟨rfl, rfl⟩ | ⟨rfl, rfl⟩ <;>
  · refine ⟨_, _, parse_eq_abbrev sa _ R _ _ ha rfl rfl,
      parse_eq_plain_append se _ _ R (he.trans rfl) rfl, ?_⟩
    dsimp only
    rw [List.filterMap_append, List.map_append]
    exact conf_abbrev_eq _ _

/-- Claim C4 witness: the spec's own instance, `[Ne] 3s2 3p6` versus
`1s2 2s2 2p6 3s2 3p6`. -/
theorem claim_C4_witness :
    ("Ne".toList, "1s2 2s2 2p6".toList) ∈ noble ∧
      (∃ ma me,
        ElectronicConfiguration.parse ("[Ne] 3s2 3p6".toList) = .ok ma ∧
        ElectronicConfiguration.parse ("1s2 2s2 2p6 3s2 3p6".toList) = .ok me ∧
        ma.conf = me.conf) :=
  ⟨by decide,
    claim_C4 ("Ne".toList) ("1s2 2s2 2p6".toList) ["3s2".toList, "3p6".toList]
      ("[Ne] 3s2 3p6".toList) ("1s2 2s2 2p6 3s2 3p6".toList)
      (by decide) (by decide) (by decide)⟩

/-! ### Decimal rendering and parsing round trip -/

/-- The accumulator of `natToCharsAux` is a suffix. -/
theorem natToCharsAux_acc (fuel : Nat) :
    ∀ n acc, n < fuel → natToCharsAux fuel n acc = natToCharsAux fuel n [] ++ acc := by
  induction fuel with
  | zero => intro n acc h; exact absurd h (Nat.not_lt_zero n)
  | succ fuel ih =>
      intro n acc h
      by_cases h10 : n < 10
      · simp [natToCharsAux, h10]
      · have hdiv : n / 10 < fuel := by omega
        simp only [natToCharsAux, if_neg h10]
        rw [ih (n / 10) (digChar (n % 10) :: acc) hdiv,
          ih (n / 10) [digChar (n % 10)] hdiv]
        simp [List.append_assoc]

/-- `natToCharsAux` does not depend on the fuel once it is sufficient. -/
theorem natToCharsAux_fuel :
    ∀ fuel fuel' n acc, n < fuel → n < fuel' →
      natToCharsAux fuel n acc = natToCharsAux fuel' n acc := by
  intro fuel
  induction fuel with
  | zero => intro fuel' n acc h h'; exact absurd h (Nat.not_lt_zero n)
  | succ fuel ih =>
      intro fuel' n acc h h'
      cases fuel' with
      | zero => exact absurd h' (Nat.not_lt_zero n)
      | succ fuel' =>
          by_cases h10 : n < 10
          · simp [natToCharsAux, h10]
          · simp only [natToCharsAux, if_neg h10]
            exact ih fuel' (n / 10) _ (by omega) (by omega)

/-- A single digit renders as its digit character. -/
theorem natToChars_eq_of_lt (n : Nat) (h10 : n < 10) : natToChars n = [digChar n] := by
  simp [natToChars, natToCharsAux, h10]

/-- The recursion of decimal rendering. -/
theorem natToChars_step (n : Nat) (h10 : ¬ n < 10) :
    natToChars n = natToChars (n / 10) ++ [digChar (n % 10)] := by
  unfold natToChars
  rw [show natToCharsAux (n + 1) n [] =
      natToCharsAux n (n / 10) (digChar (n % 10) :: []) from by
    simp [natToCharsAux, h10]]
  rw [natToCharsAux_acc n (n / 10) [digChar (n % 10)] (by omega)]
  rw [natToCharsAux_fuel n (n / 10 + 1) (n / 10) [] (by omega) (by omega)]

/-- The digit character round trip. -/
theorem digitVal_digChar (d : Nat) (h : d < 10) : digitVal (digChar d) = d := by
  interval_cases d <;> decide

/-- Digit characters satisfy the regex class `\d`. -/
theorem isDigit_digChar (d : Nat) (h : d < 10) : (digChar d).isDigit = true := by
  interval_cases d <;> decide

/-- Digit characters are not whitespace. -/
theorem digChar_not_space (d : Nat) (h : d < 10) : pyIsSpace (digChar d) = false := by
  interval_cases d <;> decide

/-- Appending one digit multiplies the parsed value by ten. -/
theorem charsToNat_append_digit (cs : List Char) (c : Char) :
    charsToNat (cs ++ [c]) = charsToNat cs * 10 + digitVal c := by
  unfold charsToNat
  rw [List.foldl_append]
  rfl

/-- Parsing the decimal rendering of a number gives the number back
(`int` inverts `"{:d}".format`). -/
theorem charsToNat_natToChars (n : Nat) : charsToNat (natToChars n) = n := by
  induction n using Nat.strong_induction_on with
  | _ n ih =>
      by_cases h10 : n < 10
      · rw [natToChars_eq_of_lt n h10]
        show 0 * 10 + digitVal (digChar n) = n
        rw [digitVal_digChar n h10]
        omega
      · rw [natToChars_step n h10, charsToNat_append_digit,
          ih (n / 10) (by omega), digitVal_digChar (n % 10) (by omega)]
        omega

/-- The rendering of a number is never empty. -/
theorem natToChars_ne_nil (n : Nat) : natToChars n ≠ [] := by
  by_cases h10 : n < 10
  · rw [natToChars_eq_of_lt n h10]; simp
  · rw [natToChars_step n h10]; simp

/-- Every character of a decimal rendering is a digit. -/
theorem natToChars_all_digit (n : Nat) : ∀ c ∈ natToChars n, c.isDigit = true := by
  induction n using Nat.strong_induction_on with
  | _ n ih =>
      by_cases h10 : n < 10
      · rw [natToChars_eq_of_lt n h10]
        intro c hc
        rw [List.mem_singleton] at hc
        subst hc
        exact isDigit_digChar n h10
      · rw [natToChars_step n h10]
        intro c hc
        rw [List.mem_append] at hc
        rcases hc with hc | hc
        · exact ih (n / 10) (by omega) c hc
        · rw [List.mem_singleton] at hc
          subst hc
          exact isDigit_digChar (n % 10) (by omega)

/-- `takeWhile` keeps a list all of whose elements satisfy the test. -/
theorem takeWhile_all {p : Char → Bool} :
    ∀ l : List Char, (∀ c ∈ l, p c = true) → l.takeWhile p = l := by
  intro l
  induction l with
  | nil => intro _; rfl
  | cons c cs ih =>
      intro h
      rw [List.takeWhile_cons, h c (List.mem_cons_self c cs)]
      simp [ih (fun x hx => h x (List.mem_cons_of_mem c hx))]

/-- Digits are not whitespace. -/
theorem isDigit_not_space (c : Char) (h : c.isDigit = true) : pyIsSpace c = false := by
  rcases Bool.eq_false_or_eq_true (pyIsSpace c) with hs | hs
  · exfalso
    unfold pyIsSpace at hs
    simp only [Bool.or_eq_true, decide_eq_true_eq] at hs
    rcases hs with ((((h1 | h1) | h1) | h1) | h1) | h1 <;>
      (subst h1; exact absurd h (by decide))
  · exact hs

/-- Subshell letters are not whitespace. -/
theorem subshell_not_space (c : Char) (h : c ∈ subshells) : pyIsSpace c = false := by
  fin_cases h <;> decide

/-! ### Rendered shell tokens parse back to themselves -/

/-- The shape of a rendered entry with a single-digit quantum number. -/
theorem renderEntry_eq (kv : Entry) (h9 : kv.1.1 ≤ 9) :
    renderEntry kv = digChar kv.1.1 :: kv.1.2 :: natToChars kv.2 := by
  unfold renderEntry
  rw [natToChars_eq_of_lt kv.1.1 (by omega)]
  rfl

/-- `shellre` matches a canonically rendered shell token, returning its
groups. -/
theorem shellre_render (n : Nat) (s : Char) (e : Nat)
    (h9 : n ≤ 9) (hs : s ∈ subshells) :
    shellreMatch (renderEntry ((n, s), e)) =
      some ([digChar n], s, some (natToChars e)) := by
  rw [renderEntry_eq ((n, s), e) h9]
  show (if (digChar n).isDigit = true ∧ s ∈ subshells then
      some ([digChar n], s,
        if (natToChars e).takeWhile Char.isDigit = [] then none
        else some ((natToChars e).takeWhile Char.isDigit))
    else none) = some ([digChar n], s, some (natToChars e))
  rw [if_pos ⟨isDigit_digChar n (by omega), hs⟩,
    takeWhile_all (natToChars e) (natToChars_all_digit e),
    if_neg (natToChars_ne_nil e)]

/-- `atomre` never matches a rendered shell token (it starts with a digit,
not `[`). -/
theorem atomre_render_none (n : Nat) (s : Char) (e : Nat) (h9 : n ≤ 9) :
    atomreMatch (renderEntry ((n, s), e)) = none := by
  rw [renderEntry_eq ((n, s), e) h9]
  have hne : ¬ (digChar n = '[' ∧ isUpperAZ s = true ∧
      ((natToChars e).dropWhile isLowerAZ).head? = some ']') := by
    rintro ⟨h1, -, -⟩
    revert h1
    interval_cases n <;> decide
  show (if digChar n = '[' ∧ isUpperAZ s = true ∧
      ((natToChars e).dropWhile isLowerAZ).head? = some ']' then
      some (s :: (natToChars e).takeWhile isLowerAZ) else none) = none
  rw [if_neg hne]

/-- Rendering, matching and converting a list of single-digit shell
entries reproduces the entries. -/
theorem filterMap_render :
    ∀ L : List Entry, (∀ kv ∈ L, kv.1.1 ≤ 9) → (∀ kv ∈ L, kv.1.2 ∈ subshells) →
      ((L.map renderEntry).filterMap shellreMatch).map toEntry = L := by
  intro L
  induction L with
  | nil => intro _ _; rfl
  | cons kv L' ih =>
      intro h9 hs
      have h9' : kv.1.1 ≤ 9 := h9 _ (List.mem_cons_self kv L')
      have hs' : kv.1.2 ∈ subshells := hs _ (List.mem_cons_self kv L')
      have hmatch : shellreMatch (renderEntry kv) =
          some ([digChar kv.1.1], kv.1.2, some (natToChars kv.2)) := by
        rcases kv with ⟨⟨n, s⟩, e⟩
        exact shellre_render n s e h9' hs'
      rw [List.map_cons, List.filterMap_cons, hmatch, List.map_cons]
      rw [ih (fun x hx => h9 x (List.mem_cons_of_mem kv hx))
        (fun x hx => hs x (List.mem_cons_of_mem kv hx))]
      congr 1
      show ((charsToNat [digChar kv.1.1], kv.1.2), charsToNat (natToChars kv.2)) = kv
      rw [charsToNat_natToChars]
      have hone : charsToNat [digChar kv.1.1] = kv.1.1 := by
        show 0 * 10 + digitVal (digChar kv.1.1) = kv.1.1
        rw [digitVal_digChar kv.1.1 (by omega)]
        omega
      rw [hone]

/-! ### Splitting a joined token list -/

/-- Consuming one whitespace-free token moves it into the accumulator. -/
theorem pysplitAux_token :
    ∀ (t cs acc : List Char), (∀ c ∈ t, pyIsSpace c = false) →
      pysplitAux (t ++ cs) acc = pysplitAux cs (t.reverse ++ acc) := by
  intro t
  induction t with
  | nil => intro cs acc _; rfl
  | cons c t' ih =>
      intro cs acc h
      have hc : pyIsSpace c = false := h c (List.mem_cons_self c t')
      show pysplitAux (c :: (t' ++ cs)) acc = pysplitAux cs ((c :: t').reverse ++ acc)
      rw [show pysplitAux (c :: (t' ++ cs)) acc = pysplitAux (t' ++ cs) (c :: acc) from by
        simp [pysplitAux, hc]]
      rw [ih cs (c :: acc) (fun x hx => h x (List.mem_cons_of_mem c hx))]
      simp [List.append_assoc]

/-- Splitting the single-space join of nonempty whitespace-free tokens
returns exactly the tokens (`str.split` inverts `" ".join`). -/
theorem pysplit_joinSep :
    ∀ ts : List (List Char), (∀ t ∈ ts, t ≠ []) →
      (∀ t ∈ ts, ∀ c ∈ t, pyIsSpace c = false) →
      pysplit (joinSep ts) = ts := by
  intro ts
  induction ts with
  | nil => intro _ _; rfl
  | cons t ts' ih =>
      intro hne hns
      have hts : t ≠ [] := hne t (List.mem_cons_self t ts')
      have htc : ∀ c ∈ t, pyIsSpace c = false := hns t (List.mem_cons_self t ts')
      cases ts' with
      | nil =>
          show pysplitAux (joinSep [t]) [] = [t]
          rw [show joinSep [t] = t ++ [] from by simp [joinSep]]
          rw [pysplitAux_token t [] [] htc]
          simp [pysplitAux, hts]
      | cons t2 ts'' =>
          show pysplitAux (t ++ ' ' :: joinSep (t2 :: ts'')) [] = t :: t2 :: ts''
          rw [pysplitAux_token t (' ' :: joinSep (t2 :: ts'')) [] htc]
          have hacc : t.reverse ++ [] ≠ [] := by simp [hts]
          rw [show pysplitAux (' ' :: joinSep (t2 :: ts'')) (t.reverse ++ []) =
              (t.reverse ++ []).reverse :: pysplitAux (joinSep (t2 :: ts'')) [] from by
            simp [pysplitAux, pyIsSpace, hacc, hts]]
          have hrr : (t.reverse ++ []).reverse = t := by simp
          rw [hrr]
          rw [show pysplitAux (joinSep (t2 :: ts'')) [] = pysplit (joinSep (t2 :: ts'')) from rfl]
          rw [ih (fun x hx => hne x (List.mem_cons_of_mem t hx))
            (fun x hx => hns x (List.mem_cons_of_mem t hx))]

/-! ### Canonical order and stability of the sort -/

/-- Strict canonical shell order on entries: the Python sort key of the
first is lexicographically strictly below that of the second. -/
def entryLt (a b : Entry) : Prop :=
  (sortKey a.1).1 < (sortKey b.1).1 ∨
    ((sortKey a.1).1 = (sortKey b.1).1 ∧ (sortKey a.1).2 < (sortKey b.1).2)

instance (a b : Entry) : Decidable (entryLt a b) :=
  inferInstanceAs (Decidable ((sortKey a.1).1 < (sortKey b.1).1 ∨
    ((sortKey a.1).1 = (sortKey b.1).1 ∧ (sortKey a.1).2 < (sortKey b.1).2)))

/-- Strict order implies the non-strict Boolean comparison. -/
theorem keyLe_of_entryLt {a b : Entry} (h : entryLt a b) : keyLe a b = true := by
  unfold keyLe
  rcases h with h | ⟨h1, h2⟩
  · exact decide_eq_true (Or.inl h)
  · exact decide_eq_true (Or.inr ⟨h1, Nat.le_of_lt h2⟩)

/-- Strictly ordered entries have distinct keys. -/
theorem keys_ne_of_entryLt {a b : Entry} (h : entryLt a b) : a.1 ≠ b.1 := by
  intro hk
  rcases h with h | ⟨h1, h2⟩
  · rw [hk] at h; exact lt_irrefl _ h
  · rw [hk] at h2; exact lt_irrefl _ h2

/-- A strictly increasing entry list has distinct keys. -/
theorem nodup_keys_of_pairwise_lt {L : List Entry} (h : L.Pairwise entryLt) :
    (keysOf L).Nodup :=
  List.pairwise_map.mpr (h.imp fun hab => keys_ne_of_entryLt hab)

/-- Sorting a strictly increasing entry list is the identity. -/
theorem pySorted_of_pairwise {L : List Entry} (h : L.Pairwise entryLt) :
    pySorted L = L :=
  List.mergeSort_of_sorted (h.imp fun hab => keyLe_of_entryLt hab)

/-! ### Claim C3: the parsing round trip -/

/-- The shape of `parse` on a string whose first token is not bracketed. -/
theorem parse_eq_plain (sp t0 : List Char) (R : List (List Char))
    (hs : pysplit sp = t0 :: R) (hm : atomreMatch t0 = none) :
    ElectronicConfiguration.parse sp =
      .ok ⟨[], odictOfList (((t0 :: R).filterMap shellreMatch).map toEntry),
           odictOfList ([] ++
             odictOfList (((t0 :: R).filterMap shellreMatch).map toEntry))⟩ := by
  simp only [ElectronicConfiguration.parse, hs, hm]

/-- Claim C3: for a configuration string of whitespace-separated shell
tokens (no abbreviation, explicit occupancies rendered canonically,
single-digit quantum numbers) in strictly increasing canonical order,
parsing, sorting and rendering reproduces the whitespace-normalized
input: the result is the single-space join of the tokens, and it splits
back to the very same tokens as the input. -/
theorem claim_C3 (L : List Entry) (s0 : List Char)
    (hne : L ≠ [])
    (h9 : ∀ kv ∈ L, kv.1.1 ≤ 9)
    (hsub : ∀ kv ∈ L, kv.1.2 ∈ subshells)
    (hinc : L.Pairwise entryLt)
    (hsplit : pysplit s0 = L.map renderEntry) :
    (ElectronicConfiguration.parse s0).map
        (fun m => ElectronicConfiguration.conf2str ((m.sort true).conf)) =
      .ok (joinSep (L.map renderEntry)) ∧
    pysplit (joinSep (L.map renderEntry)) = pysplit s0 := by
  obtain ⟨kv0, L', rfl⟩ : ∃ kv0 L', L = kv0 :: L' := by
    cases L with
    | nil => exact absurd rfl hne
    | cons a b => exact ⟨a, b, rfl⟩
  have hm : atomreMatch (renderEntry kv0) = none := by
    rcases kv0 with ⟨⟨n, s⟩, e⟩
    exact atomre_render_none n s e (h9 _ (List.mem_cons_self _ _))
  have hp := parse_eq_plain s0 (renderEntry kv0) (L'.map renderEntry)
    (hsplit.trans rfl) hm
  have hfm : (((renderEntry kv0 :: L'.map renderEntry)).filterMap shellreMatch).map
      toEntry = kv0 :: L' :=
    filterMap_render (kv0 :: L') h9 hsub
  have hone : odictOfList (kv0 :: L') = kv0 :: L' :=
    insertAll_nil_of_nodup _ (nodup_keys_of_pairwise_lt hinc)
  have hconf : odictOfList ([] ++
      odictOfList (((renderEntry kv0 :: L'.map renderEntry)).filterMap
        shellreMatch |>.map toEntry)) = kv0 :: L' := by
    rw [List.nil_append, hfm, hone, hone]
  constructor
  · rw [hp]
    show Except.ok (ElectronicConfiguration.conf2str (pySorted (odictOfList ([] ++
        odictOfList (((renderEntry kv0 :: L'.map renderEntry)).filterMap
          shellreMatch |>.map toEntry))))) = _
    rw [hconf, pySorted_of_pairwise hinc]
    rfl
  · rw [hsplit]
    apply pysplit_joinSep
    · intro t ht
      rw [List.mem_map] at ht
      obtain ⟨kv, hkv, rfl⟩ := ht
      rw [renderEntry_eq kv (h9 kv hkv)]
      simp
    · intro t ht c hc
      rw [List.mem_map] at ht
      obtain ⟨kv, hkv, rfl⟩ := ht
      rw [renderEntry_eq kv (h9 kv hkv)] at hc
      rcases List.mem_cons.mp hc with rfl | hc2
      · exact digChar_not_space kv.1.1 (by have := h9 kv hkv; omega)
      · rcases List.mem_cons.mp hc2 with rfl | hc3
        · exact subshell_not_space _ (hsub kv hkv)
        · exact isDigit_not_space c (natToChars_all_digit kv.2 c hc3)

/-- Claim C3 witness: the theorem at the configuration `1s2 2s2 2p6`. -/
theorem claim_C3_witness :
    (pysplit ("1s2 2s2 2p6".toList) =
        ([((1,'s'),2), ((2,'s'),2), ((2,'p'),6)] : List Entry).map renderEntry) ∧
      ((ElectronicConfiguration.parse ("1s2 2s2 2p6".toList)).map
          (fun m => ElectronicConfiguration.conf2str ((m.sort true).conf)) =
        .ok (joinSep (([((1,'s'),2), ((2,'s'),2), ((2,'p'),6)] : List Entry).map
          renderEntry)) ∧
       pysplit (joinSep (([((1,'s'),2), ((2,'s'),2), ((2,'p'),6)] : List Entry).map
         renderEntry)) = pysplit ("1s2 2s2 2p6".toList)) :=
  ⟨by decide,
    claim_C3 [((1,'s'),2), ((2,'s'),2), ((2,'p'),6)] ("1s2 2s2 2p6".toList)
      (by decide) (by decide) (by decide) (by decide) (by decide)⟩

/-- Claim C7 witness: both parts of the amended theorem at concrete
arguments (non-integer `n`, and the integer 0). -/
theorem claim_C7_witness :
    el7.zeff .nonInt (some 's') slaterChars = .error .invalidQuantumNumber ∧
      el7.zeff (.int 0) (some 's') slaterChars ≠ .error .invalidQuantumNumber :=
  ⟨(claim_C7 el7 (some 's') slaterChars).1,
    (claim_C7 el7 (some 's') slaterChars).2 0⟩
